import Mathlib

/-! Event scheduler: a shallow embedding of `src/main.cpp`.

The program keeps a `vector<Event>` in memory, mirrors it into the text file
`events.txt`, and offers a console menu (add, view, edit, delete, search, count,
exit).

Modelling conventions.

* A `std::string` is the list of its bytes, each byte read as an `unsigned char`
  value (a natural number below 256).  None of the definitions needs the bound.
* `std::sort` is library code; it is a parameter `sort` of every operation that
  calls it, constrained by `IsStdSort` (what the C++ standard promises for a
  strict weak ordering).  `isort` is one executable function meeting it.
* The file `events.txt` is `Option Str`: `none` when it cannot be opened for
  reading, `some bytes` otherwise.  Opening it for writing is taken to succeed.
* Console input is handed to every handler already split into the lines and
  whitespace-delimited tokens the handler reads (`clearInputStream` only
  discards what is left of the current line).  A round of the menu whose
  `cin >> choice` extracts no number is `none` in the list of rounds: the menu
  path never clears the stream, no later round is read and `main` does not
  return.  Console output is modelled for `viewEvents` and `searchEvent`, whose
  output is what they are for.
-/

namespace EventSchedule

/-! ## Strings -/

/-- A `std::string`, as the list of its bytes. -/
abbrev Str := List Nat

/-- The bytes of an ASCII literal. -/
def ascii (s : String) : Str := s.toList.map Char.toNat

/-- The `operator<` of `std::string`: bytes are compared as unsigned values, the
first difference decides, and a proper prefix is smaller. -/
def strLt : Str → Str → Bool
  | [], [] => false
  | [], _ :: _ => true
  | _ :: _, [] => false
  | a :: as, b :: bs => if a < b then true else if b < a then false else strLt as bs

/-- The C function `isdigit` in the "C" locale, on a byte. -/
def isdigit (c : Nat) : Bool := decide (48 ≤ c) && decide (c ≤ 57)

/-- The function `std::string::find(q)` started at offset `pos`: whether `q`
begins at the head of the string. -/
def startsWith : Str → Str → Bool
  | _, [] => true
  | [], _ :: _ => false
  | c :: s, d :: q => decide (c = d) && startsWith s q

/-- The function `std::string::find(q)`: the first position at which `q` occurs,
`none` for `npos`.  The third argument is the offset of the first argument in
the whole string. -/
def find : Str → Str → Nat → Option Nat
  | [], q, pos => if q.isEmpty then some pos else none
  | c :: s, q, pos => if startsWith (c :: s) q then some pos else find s q (pos + 1)

/-! ## Events -/

/-- The struct `Event`. -/
structure Event where
  title : Str
  date : Str
  time : Str
deriving DecidableEq, Repr

/-- The member `Event::operator<`. -/
def Event.lt (a e : Event) : Bool :=
  if a.date = e.date then strLt a.time e.time else strLt a.date e.date

/-- The postcondition of `std::sort` on a range: no later element is smaller
than an earlier one. -/
def SortedBy (v : List Event) : Prop :=
  v.Pairwise (fun a b => Event.lt b a = false)

/-- What the standard promises of `std::sort(v.begin(), v.end())`: the result is
a rearrangement of the range, sorted with respect to `operator<`.  The order
of equivalent elements is left open. -/
def IsStdSort (sort : List Event → List Event) : Prop :=
  (∀ v, (sort v).Perm v) ∧ (∀ v, SortedBy (sort v))

/-- Insertion of one event before the first strictly larger one. -/
def insertSorted (e : Event) : List Event → List Event
  | [] => [e]
  | x :: xs => if Event.lt e x then e :: x :: xs else x :: insertSorted e xs

/-- Insertion sort, an executable function that meets `IsStdSort`. -/
def isort : List Event → List Event
  | [] => []
  | x :: xs => insertSorted x (isort xs)

/-! ## Validator -/

/-- The function `validateDate`. -/
def validateDate (date : Str) : Bool :=
  if date.length != 10 || date.getD 4 0 != 45 || date.getD 7 0 != 45 then
    false
  else
    isdigit (date.getD 0 0) && isdigit (date.getD 1 0) && isdigit (date.getD 2 0) &&
    isdigit (date.getD 3 0) && isdigit (date.getD 5 0) && isdigit (date.getD 6 0) &&
    isdigit (date.getD 8 0) && isdigit (date.getD 9 0)

/-- The function `validateTime`. -/
def validateTime (time : Str) : Bool :=
  if time.length != 5 || time.getD 2 0 != 58 then
    false
  else
    isdigit (time.getD 0 0) && isdigit (time.getD 1 0) && isdigit (time.getD 3 0) &&
    isdigit (time.getD 4 0)

/-! ## Persistence -/

/-- An input file stream: the bytes not read yet and two of its state bits. -/
structure IStream where
  buf : Str
  eofbit : Bool
  failbit : Bool
deriving DecidableEq, Repr

/-- The bytes before the first newline. -/
def takeLine : Str → Str
  | [] => []
  | c :: cs => if c = 10 then [] else c :: takeLine cs

/-- The bytes after the first newline, `none` when there is no newline. -/
def dropLine : Str → Option Str
  | [] => none
  | c :: cs => if c = 10 then some cs else dropLine cs

/-- The function `std::getline(is, str)`.  On a stream that is not good it sets
`failbit` and leaves `str` alone.  Otherwise it clears `str` and extracts bytes
up to and including the next newline (which is not stored) or up to the end of
the input, where it sets `eofbit`; extracting nothing at all sets `failbit`. -/
def getline (is : IStream) (str : Str) : IStream × Str :=
  if is.eofbit || is.failbit then
    ({ is with failbit := true }, str)
  else
    match is.buf with
    | [] => ({ buf := [], eofbit := true, failbit := true }, [])
    | c :: cs =>
      match dropLine (c :: cs) with
      | some rest => ({ buf := rest, eofbit := false, failbit := false }, takeLine (c :: cs))
      | none => ({ buf := [], eofbit := true, failbit := false }, takeLine (c :: cs))

/-- The `while (getline(file, event.title))` loop of `loadEvents`.  Every round
that does not leave the loop consumes at least one byte, so a fuel above the
length of the input is never used up. -/
def loadLoop : Nat → IStream → Event → List Event → List Event
  | 0, _, _, events => events
  | fuel + 1, file, event, events =>
    let r1 := getline file event.title
    if r1.1.failbit then events
    else
      let r2 := getline r1.1 event.date
      let r3 := getline r2.1 event.time
      let event1 : Event := { title := r1.2, date := r2.2, time := r3.2 }
      loadLoop fuel r3.1 event1 (events ++ [event1])

/-- The function `loadEvents`: `fs` is the file `events.txt`. -/
def loadEvents (sort : List Event → List Event) (fs : Option Str)
    (events : List Event) : List Event :=
  match fs with
  | none => events
  | some bytes =>
    sort (loadLoop (bytes.length + 1) { buf := bytes, eofbit := false, failbit := false }
      { title := [], date := [], time := [] } events)

/-- The function `saveEvents`: the bytes of `events.txt` after the call. -/
def saveEvents : List Event → Str
  | [] => []
  | event :: rest =>
    event.title ++ [10] ++ event.date ++ [10] ++ event.time ++ [10] ++ saveEvents rest

/-! ## Command handlers -/

/-- A loop `do { cin >> x; } while (!valid(x));` over the tokens still to come:
the accepted token and the tokens after it, `none` when no token is ever
accepted (the loop does not end). -/
def promptUntil (valid : Str → Bool) : List Str → Option (Str × List Str)
  | [] => none
  | tok :: rest => if valid tok then some (tok, rest) else promptUntil valid rest

/-- The function `addEvent`: `title` is the line read by `getline`, `tokens`
the tokens the two `cin >>` loops read. -/
def addEvent (sort : List Event → List Event) (events : List Event) (title : Str)
    (tokens : List Str) : Option (List Event) :=
  match promptUntil validateDate tokens with
  | none => none
  | some (date, tokens1) =>
    match promptUntil validateTime tokens1 with
    | none => none
    | some (time, _) => some (sort (events ++ [{ title := title, date := date, time := time }]))

/-- One line of a listing: `date << " " << time << " - " << title << "\n"`. -/
def eventLine (event : Event) : Str :=
  event.date ++ ascii " " ++ event.time ++ ascii " - " ++ event.title ++ ascii "\n"

/-- The range-for loop that prints every event. -/
def printEvents : List Event → Str
  | [] => []
  | event :: rest => eventLine event ++ printEvents rest

/-- The function `viewEvents`: what it writes to `cout`. -/
def viewEvents (events : List Event) : Str :=
  if events.isEmpty then ascii "No events scheduled.\n"
  else ascii "\nScheduled Events:\n" ++ printEvents events

/-- The three conditional assignments in the body of `editEvent`. -/
def applyEdit (event : Event) (newTitle newDate newTime : Str) : Event :=
  let e1 : Event := if !newTitle.isEmpty then { event with title := newTitle } else event
  let e2 : Event :=
    if !newDate.isEmpty && validateDate newDate then { e1 with date := newDate } else e1
  if !newTime.isEmpty && validateTime newTime then { e2 with time := newTime } else e2

/-- The range-for loop of `editEvent` up to the event it edits: the vector with
the first event titled `titleToEdit` edited in place, `none` when the loop runs
to its end. -/
def editLoop (titleToEdit newTitle newDate newTime : Str) : List Event → Option (List Event)
  | [] => none
  | event :: rest =>
    if event.title = titleToEdit then
      some (applyEdit event newTitle newDate newTime :: rest)
    else
      (editLoop titleToEdit newTitle newDate newTime rest).map (fun l => event :: l)

/-- The function `editEvent`. -/
def editEvent (sort : List Event → List Event) (events : List Event)
    (titleToEdit newTitle newDate newTime : Str) : List Event :=
  match editLoop titleToEdit newTitle newDate newTime events with
  | some edited => sort edited
  | none => events

/-- The algorithm `std::remove_if`: the elements not satisfying `p` are moved to
the front in their order; the result is the vector and the position of the new
logical end.  What lies behind that position is unspecified (here: what was
there before). -/
def remove_if (p : Event → Bool) (v : List Event) : List Event × Nat :=
  let kept := v.filter (fun e => !p e)
  (kept ++ v.drop kept.length, kept.length)

/-- The function `deleteEvent`. -/
def deleteEvent (events : List Event) (titleToDelete : Str) : List Event :=
  let r := remove_if (fun event => decide (event.title = titleToDelete)) events
  if r.2 ≠ r.1.length then r.1.take r.2 else r.1

/-- The range-for loop of `searchEvent` on the pair (`cout`, `found`). -/
def searchLoop (titleToSearch : Str) : List Event → Str × Bool → Str × Bool
  | [], st => st
  | event :: rest, st =>
    if (find event.title titleToSearch 0).isSome then
      searchLoop titleToSearch rest (st.1 ++ eventLine event, true)
    else
      searchLoop titleToSearch rest st

/-- The function `searchEvent`: what it writes to `cout` after the prompt. -/
def searchEvent (events : List Event) (titleToSearch : Str) : Str :=
  let r := searchLoop titleToSearch events ([], false)
  if !r.2 then
    r.1 ++ ascii "No events matching " ++ [34] ++ titleToSearch ++ [34] ++ ascii " were found.\n"
  else r.1

/-! ## Menu loop -/

/-- What one round of the menu reads from the console: the number for
`cin >> choice`, the first line the handler reads (a title or a query), the
three further lines `editEvent` reads once it has found the event, and the
tokens `addEvent` reads. -/
structure Console where
  choice : Int
  line : Str
  newTitle : Str
  newDate : Str
  newTime : Str
  tokens : List Str
deriving DecidableEq, Repr

/-- The state the menu loop works on: the vector `events` and `events.txt`. -/
structure State where
  events : List Event
  file : Option Str
deriving DecidableEq, Repr

/-- The `switch (choice)` of `main`: one round of the menu.  `none` when the
handler does not return. -/
def menuStep (sort : List Event → List Event) (inp : Console) (st : State) : Option State :=
  if inp.choice = 1 then
    match addEvent sort st.events inp.line inp.tokens with
    | none => none
    | some events => some { events := events, file := some (saveEvents events) }
  else if inp.choice = 2 then
    some st
  else if inp.choice = 3 then
    let events := editEvent sort st.events inp.line inp.newTitle inp.newDate inp.newTime
    some { events := events, file := some (saveEvents events) }
  else if inp.choice = 4 then
    let events := deleteEvent st.events inp.line
    some { events := events, file := some (saveEvents events) }
  else if inp.choice = 5 then
    some st
  else if inp.choice = 6 then
    some st
  else if inp.choice = 7 then
    some st
  else
    some st

/-- The `do ... while (choice != 7)` loop of `main` over the rounds the console
supplies; the state when the input is used up or the loop has ended.  A round
is `some inp` when the `switch` runs on a number read by `cin >> choice`, and
`none` when that extraction fails: `main` has no `cin.clear()` on that path, so
the stream stays failed, `choice` never becomes 7 and the loop does not end
(the result is `none`, whatever rounds the list holds after it). -/
def menuLoop (sort : List Event → List Event) : List (Option Console) → State → Option State
  | [], st => some st
  | none :: _, _ => none
  | some inp :: rest, st =>
    match menuStep sort inp st with
    | none => none
    | some st1 => if inp.choice = 7 then some st1 else menuLoop sort rest st1

/-- The function `main`: load, then the menu loop. -/
def main (sort : List Event → List Event) (fs : Option Str) (inputs : List (Option Console)) :
    Option State :=
  menuLoop sort inputs { events := loadEvents sort fs [], file := fs }

/-- The tokens hold one that `validateDate` accepts and, after it, one that
`validateTime` accepts, so both loops of `addEvent` end. -/
def AddReturns (tokens : List Str) : Prop :=
  ∃ (pre1 : List Str) (date : Str) (pre2 : List Str) (time : Str) (rest : List Str),
    tokens = pre1 ++ date :: (pre2 ++ time :: rest) ∧
    (∀ x ∈ pre1, validateDate x = false) ∧ validateDate date = true ∧
    (∀ x ∈ pre2, validateTime x = false) ∧ validateTime time = true

/-- The file holds the serialization of the collection. -/
def InSync (st : State) : Prop := st.file = some (saveEvents st.events)

/-! ## Reachable collections -/

/-- The collections reachable from the empty one, or from what `loadEvents`
leaves, by `addEvent`, `editEvent` and `deleteEvent`. -/
inductive Reachable (sort : List Event → List Event) : List Event → Prop
  | empty : Reachable sort []
  | load (fs : Option Str) : Reachable sort (loadEvents sort fs [])
  | add {events events1 : List Event} (title : Str) (tokens : List Str) :
      Reachable sort events → addEvent sort events title tokens = some events1 →
      Reachable sort events1
  | edit {events : List Event} (t newTitle newDate newTime : Str) :
      Reachable sort events → Reachable sort (editEvent sort events t newTitle newDate newTime)
  | delete {events : List Event} (t : Str) :
      Reachable sort events → Reachable sort (deleteEvent events t)

/-! ## Reading of a validated event as numbers -/

/-- The value of a decimal digit byte. -/
def digitVal (c : Nat) : Nat := c - 48

/-- The number written by a string of digit bytes. -/
def numOf (ds : Str) : Nat := ds.foldl (fun acc c => 10 * acc + digitVal c) 0

/-- The tuple (year, month, day, hour, minute) read from the digits of an
event whose date is `YYYY-MM-DD` and whose time is `HH:MM`. -/
def chronoKey (e : Event) : Nat × Nat × Nat × Nat × Nat :=
  (numOf (e.date.take 4), numOf ((e.date.drop 5).take 2), numOf (e.date.drop 8),
   numOf (e.time.take 2), numOf (e.time.drop 3))

/-- Strict lexicographic order on five-tuples of natural numbers. -/
def tupleLt (x y : Nat × Nat × Nat × Nat × Nat) : Prop :=
  x.1 < y.1 ∨ (x.1 = y.1 ∧ (x.2.1 < y.2.1 ∨ (x.2.1 = y.2.1 ∧ (x.2.2.1 < y.2.2.1 ∨
    (x.2.2.1 = y.2.2.1 ∧ (x.2.2.2.1 < y.2.2.2.1 ∨
      (x.2.2.2.1 = y.2.2.2.1 ∧ x.2.2.2.2 < y.2.2.2.2)))))))

/-- The order the specification words for the collection: for `a` before `b`,
either `a.date < b.date`, or the dates are equal and `a.time <= b.time`. -/
def DateTimeLe (a b : Event) : Prop :=
  strLt a.date b.date = true ∨
    (a.date = b.date ∧ (a.time = b.time ∨ strLt a.time b.time = true))

/-! ## Sample events -/

/-- The event (Standup, 2024-03-01, 09:00). -/
def standup : Event :=
  { title := ascii "Standup", date := ascii "2024-03-01", time := ascii "09:00" }

/-- A round of the menu that reads a number and one line. -/
def lineRound (choice : Int) (line : Str) : Console :=
  { choice := choice, line := line, newTitle := [], newDate := [], newTime := [], tokens := [] }

/-- A session: view, delete a title that matches nothing, add Standup after one
rejected date token, search, an invalid number, edit the time of Lunch, exit. -/
def session : List Console :=
  [lineRound 2 [],
   lineRound 4 (ascii "Dinner"),
   { choice := 1, line := ascii "Standup", newTitle := [], newDate := [], newTime := [],
     tokens := [ascii "soon", ascii "2024-03-01", ascii "09:00"] },
   lineRound 5 (ascii "unch"),
   lineRound 9 [],
   { choice := 3, line := ascii "Lunch", newTitle := [], newDate := [],
     newTime := ascii "13:00", tokens := [] },
   lineRound 7 []]

/-- The event (Lunch, 2024-03-01, 12:00). -/
def lunch : Event :=
  { title := ascii "Lunch", date := ascii "2024-03-01", time := ascii "12:00" }

/-! ## Facts about the string order -/

theorem strLt_irrefl (a : Str) : strLt a a = false := by
  induction a with
  | nil => rfl
  | cons x xs ih => simp [strLt, ih]

theorem strLt_asymm : ∀ (a b : Str), strLt a b = true → strLt b a = false
  | [], [], h => by simp [strLt] at h
  | [], _ :: _, _ => by simp [strLt]
  | _ :: _, [], h => by simp [strLt] at h
  | x :: xs, y :: ys, h => by
    simp only [strLt] at h ⊢
    by_cases h1 : x < y
    · have h2 : ¬ y < x := by omega
      simp [h2, h1]
    · by_cases h2 : y < x
      · simp [h1, h2] at h
      · simp only [h1, h2, if_false] at h ⊢
        exact strLt_asymm xs ys h

theorem strLt_total : ∀ (a b : Str), strLt a b = false → strLt b a = false → a = b
  | [], [], _, _ => rfl
  | [], _ :: _, h, _ => by simp [strLt] at h
  | _ :: _, [], _, h => by simp [strLt] at h
  | x :: xs, y :: ys, h, h' => by
    simp only [strLt] at h h'
    by_cases h1 : x < y
    · simp [h1] at h
    · by_cases h2 : y < x
      · simp [h2] at h'
      · simp only [h1, h2, if_false] at h h'
        have hxy : x = y := by omega
        rw [hxy, strLt_total xs ys h h']

theorem strLt_trans : ∀ (a b c : Str), strLt a b = true → strLt b c = true → strLt a c = true
  | [], [], _, h, _ => by simp [strLt] at h
  | [], _ :: _, [], _, h => by simp [strLt] at h
  | [], _ :: _, _ :: _, _, _ => by simp [strLt]
  | _ :: _, [], _, h, _ => by simp [strLt] at h
  | _ :: _, _ :: _, [], _, h => by simp [strLt] at h
  | x :: xs, y :: ys, z :: zs, h, h' => by
    simp only [strLt] at h h' ⊢
    by_cases h1 : x < y
    · by_cases h2 : y < z
      · have : x < z := by omega
        simp [this]
      · by_cases h3 : z < y
        · simp [h2, h3] at h'
        · have : x < z := by omega
          simp [this]
    · by_cases h2 : y < x
      · simp [h1, h2] at h
      · simp only [h1, h2, if_false] at h
        have hxy : x = y := by omega
        subst hxy
        by_cases h3 : x < z
        · simp [h3]
        · by_cases h4 : z < x
          · simp [h3, h4] at h'
          · simp only [h3, h4, if_false] at h' ⊢
            exact strLt_trans xs ys zs h h'

/-- The negation of `operator<` the other way round is the order the
specification words. -/
theorem lt_false_iff (a b : Event) : Event.lt b a = false ↔ DateTimeLe a b := by
  unfold Event.lt DateTimeLe
  by_cases hd : b.date = a.date
  · simp only [hd, if_true, strLt_irrefl, true_and, false_or, Bool.false_eq_true]
    constructor
    · intro h
      by_cases h2 : strLt a.time b.time = true
      · exact Or.inr h2
      · exact Or.inl (strLt_total _ _ (by simpa using h2) h)
    · rintro (h | h)
      · rw [h, strLt_irrefl]
      · exact strLt_asymm _ _ h
  · have hd' : ¬ a.date = b.date := fun h => hd h.symm
    simp only [hd, hd', if_false, false_and, or_false]
    constructor
    · intro h
      by_cases h2 : strLt a.date b.date = true
      · exact h2
      · exact absurd (strLt_total _ _ (by simpa using h2) h) hd'
    · intro h
      exact strLt_asymm _ _ h

theorem dateTimeLe_trans {a b c : Event} (h1 : DateTimeLe a b) (h2 : DateTimeLe b c) :
    DateTimeLe a c := by
  unfold DateTimeLe at *
  rcases h1 with h1 | ⟨e1, h1⟩
  · rcases h2 with h2 | ⟨e2, _⟩
    · exact Or.inl (strLt_trans _ _ _ h1 h2)
    · exact Or.inl (e2 ▸ h1)
  · rcases h2 with h2 | ⟨e2, h2⟩
    · exact Or.inl (e1 ▸ h2)
    · refine Or.inr ⟨e1.trans e2, ?_⟩
      rcases h1 with h1 | h1
      · rw [h1]; exact h2
      · rcases h2 with h2 | h2
        · rw [← h2]; exact Or.inr h1
        · exact Or.inr (strLt_trans _ _ _ h1 h2)

theorem dateTimeLe_of_lt {a b : Event} (h : Event.lt a b = true) : DateTimeLe a b := by
  rw [← lt_false_iff]
  unfold Event.lt at *
  by_cases hd : a.date = b.date
  · have hd' : b.date = a.date := hd.symm
    simp only [hd, if_true] at h
    simp only [hd', if_true]
    exact strLt_asymm _ _ h
  · have hd' : ¬ b.date = a.date := fun h => hd h.symm
    simp only [hd, if_false] at h
    simp only [hd', if_false]
    exact strLt_asymm _ _ h

/-- The member `operator<` is a strict weak ordering, as `std::sort` requires:
irreflexive, transitive, and with a transitive "not smaller" relation. -/
theorem lt_strictWeakOrder :
    (∀ a : Event, Event.lt a a = false) ∧
    (∀ a b c : Event, Event.lt a b = true → Event.lt b c = true → Event.lt a c = true) ∧
    (∀ a b c : Event, Event.lt b a = false → Event.lt c b = false → Event.lt c a = false) := by
  refine ⟨?_, ?_, ?_⟩
  · intro a
    simp [Event.lt, strLt_irrefl]
  · intro a b c hab hbc
    have h1 : DateTimeLe a c :=
      dateTimeLe_trans (dateTimeLe_of_lt hab) (dateTimeLe_of_lt hbc)
    cases hac : Event.lt a c with
    | true => rfl
    | false =>
      have h2 : DateTimeLe c a := (lt_false_iff c a).mp hac
      have h3 : DateTimeLe c b := dateTimeLe_trans h2 (dateTimeLe_of_lt hab)
      rw [(lt_false_iff c b).mpr h3] at hbc
      exact absurd hbc (by simp)
  · intro a b c hab hbc
    exact (lt_false_iff a c).mpr
      (dateTimeLe_trans ((lt_false_iff a b).mp hab) ((lt_false_iff b c).mp hbc))

/-! ## Insertion sort meets the contract of `std::sort` -/

theorem insertSorted_perm (e : Event) (v : List Event) : (insertSorted e v).Perm (e :: v) := by
  induction v with
  | nil => exact List.Perm.refl _
  | cons x xs ih =>
    unfold insertSorted
    split
    · exact List.Perm.refl _
    · exact (List.Perm.cons x ih).trans (List.Perm.swap e x xs)

theorem isort_perm (v : List Event) : (isort v).Perm v := by
  induction v with
  | nil => exact List.Perm.refl _
  | cons x xs ih => exact (insertSorted_perm x (isort xs)).trans (List.Perm.cons x ih)

theorem insertSorted_sorted (e : Event) (v : List Event) (h : SortedBy v) :
    SortedBy (insertSorted e v) := by
  induction v with
  | nil => simp [insertSorted, SortedBy]
  | cons x xs ih =>
    unfold SortedBy at h ih ⊢
    rw [List.pairwise_cons] at h
    unfold insertSorted
    split
    · rename_i hlt
      refine List.pairwise_cons.mpr ⟨?_, List.pairwise_cons.mpr h⟩
      intro b hb
      have hex : DateTimeLe e x := dateTimeLe_of_lt hlt
      rcases List.mem_cons.mp hb with rfl | hb
      · exact (lt_false_iff _ _).mpr hex
      · exact (lt_false_iff _ _).mpr (dateTimeLe_trans hex ((lt_false_iff _ _).mp (h.1 b hb)))
    · rename_i hlt
      refine List.pairwise_cons.mpr ⟨?_, ih h.2⟩
      intro b hb
      rcases List.mem_cons.mp ((insertSorted_perm e xs).subset hb) with rfl | hb
      · simpa using hlt
      · exact h.1 b hb

theorem isort_sorted (v : List Event) : SortedBy (isort v) := by
  induction v with
  | nil => simp [isort, SortedBy]
  | cons x xs ih => exact insertSorted_sorted x _ ih

theorem isort_isStdSort : IsStdSort isort := ⟨isort_perm, isort_sorted⟩

/-! ## The validator -/

theorem validateDate_shape (s : Str) : validateDate s = true ↔
    ∃ y0 y1 y2 y3 m0 m1 d0 d1 : Nat,
      s = [y0, y1, y2, y3, 45, m0, m1, 45, d0, d1] ∧
      (48 ≤ y0 ∧ y0 ≤ 57) ∧ (48 ≤ y1 ∧ y1 ≤ 57) ∧ (48 ≤ y2 ∧ y2 ≤ 57) ∧ (48 ≤ y3 ∧ y3 ≤ 57) ∧
      (48 ≤ m0 ∧ m0 ≤ 57) ∧ (48 ≤ m1 ∧ m1 ≤ 57) ∧ (48 ≤ d0 ∧ d0 ≤ 57) ∧ (48 ≤ d1 ∧ d1 ≤ 57) := by
  rcases s with _ | ⟨a0, _ | ⟨a1, _ | ⟨a2, _ | ⟨a3, _ | ⟨a4, _ | ⟨a5, _ | ⟨a6, _ | ⟨a7, _ |
    ⟨a8, _ | ⟨a9, _ | ⟨a10, r⟩⟩⟩⟩⟩⟩⟩⟩⟩⟩⟩ <;>
    simp [validateDate, isdigit]
  constructor
  · rintro ⟨⟨h4, h7⟩, h⟩
    subst h4 h7
    exact ⟨a0, a1, a2, a3, a5, a6, a8, a9, by simp, by omega⟩
  · rintro ⟨y0, y1, y2, y3, m0, m1, d0, d1, ⟨e0, e1, e2, e3, e4, e5, e6, e7, e8, e9⟩, h⟩
    subst e0 e1 e2 e3 e4 e5 e6 e7 e8 e9
    exact ⟨⟨rfl, rfl⟩, by omega⟩

theorem validateTime_shape (s : Str) : validateTime s = true ↔
    ∃ h0 h1 m0 m1 : Nat,
      s = [h0, h1, 58, m0, m1] ∧
      (48 ≤ h0 ∧ h0 ≤ 57) ∧ (48 ≤ h1 ∧ h1 ≤ 57) ∧ (48 ≤ m0 ∧ m0 ≤ 57) ∧ (48 ≤ m1 ∧ m1 ≤ 57) := by
  rcases s with _ | ⟨a0, _ | ⟨a1, _ | ⟨a2, _ | ⟨a3, _ | ⟨a4, _ | ⟨a5, r⟩⟩⟩⟩⟩⟩ <;>
    simp [validateTime, isdigit]
  constructor
  · rintro ⟨h2, h⟩
    subst h2
    exact ⟨a0, a1, a3, a4, by simp, by omega⟩
  · rintro ⟨h0, h1, m0, m1, ⟨e0, e1, e2, e3, e4⟩, h⟩
    subst e0 e1 e2 e3 e4
    exact ⟨rfl, by omega⟩

/-- Claim C3: `validateDate s` is true exactly when `s` has length 10, the bytes
at positions 4 and 7 are `'-'` (45) and the bytes at positions 0, 1, 2, 3, 5, 6,
8, 9 are ASCII digits (48 to 57).  It accepts "2024-01-01" and the
calendar-invalid "2024-13-99", and rejects "2024/01/01" and "2024-1-01". -/
theorem validateDate_spec :
    (∀ s : Str, validateDate s = true ↔
      (s.length = 10 ∧ s[4]? = some 45 ∧ s[7]? = some 45 ∧
        ∀ i ∈ [0, 1, 2, 3, 5, 6, 8, 9], ∃ c, s[i]? = some c ∧ 48 ≤ c ∧ c ≤ 57)) ∧
    validateDate (ascii "2024-01-01") = true ∧
    validateDate (ascii "2024-13-99") = true ∧
    validateDate (ascii "2024/01/01") = false ∧
    validateDate (ascii "2024-1-01") = false := by
  refine ⟨?_, by decide, by decide, by decide, by decide⟩
  intro s
  rcases s with _ | ⟨a0, _ | ⟨a1, _ | ⟨a2, _ | ⟨a3, _ | ⟨a4, _ | ⟨a5, _ | ⟨a6, _ | ⟨a7, _ |
    ⟨a8, _ | ⟨a9, _ | ⟨a10, r⟩⟩⟩⟩⟩⟩⟩⟩⟩⟩⟩ <;>
    simp [validateDate, isdigit]
  constructor
  · rintro ⟨⟨h4, h7⟩, h⟩
    exact ⟨h4, h7, by omega⟩
  · rintro ⟨h4, h7, h⟩
    exact ⟨⟨h4, h7⟩, by omega⟩

/-- Claim C4: `validateTime s` is true exactly when `s` has length 5, the byte at
position 2 is `':'` (58) and the bytes at positions 0, 1, 3, 4 are ASCII digits
(48 to 57).  It accepts "09:30" and the out-of-range "25:99", and rejects
"9:30". -/
theorem validateTime_spec :
    (∀ s : Str, validateTime s = true ↔
      (s.length = 5 ∧ s[2]? = some 58 ∧
        ∀ i ∈ [0, 1, 3, 4], ∃ c, s[i]? = some c ∧ 48 ≤ c ∧ c ≤ 57)) ∧
    validateTime (ascii "09:30") = true ∧
    validateTime (ascii "25:99") = true ∧
    validateTime (ascii "9:30") = false := by
  refine ⟨?_, by decide, by decide, by decide⟩
  intro s
  rcases s with _ | ⟨a0, _ | ⟨a1, _ | ⟨a2, _ | ⟨a3, _ | ⟨a4, _ | ⟨a5, r⟩⟩⟩⟩⟩⟩ <;>
    simp [validateTime, isdigit]
  intro _
  constructor <;> intro h <;> omega

/-! ## The handlers, one by one -/

theorem deleteEvent_eq_filter (events : List Event) (t : Str) :
    deleteEvent events t = events.filter (fun e => !decide (e.title = t)) := by
  unfold deleteEvent remove_if
  simp only []
  split
  · exact List.take_left' rfl
  · rename_i h
    have hlen : (events.filter (fun e => !decide (e.title = t))).length = events.length := by
      have h2 := not_not.mp h
      have hle := List.length_filter_le (fun e : Event => !decide (e.title = t)) events
      simp only [List.length_append, List.length_drop] at h2
      omega
    rw [List.drop_of_length_le (by omega), List.append_nil]

theorem sortedBy_chain {v : List Event} (h : SortedBy v) : List.Chain' DateTimeLe v := by
  have hp : v.Pairwise DateTimeLe :=
    List.Pairwise.imp (fun {a b} hab => (lt_false_iff a b).mp hab) h
  exact List.Pairwise.chain' hp

theorem loadEvents_sorted (sort : List Event → List Event) (hs : IsStdSort sort)
    (fs : Option Str) : SortedBy (loadEvents sort fs []) := by
  cases fs with
  | none => simp [loadEvents, SortedBy]
  | some bytes => exact hs.2 _

theorem addEvent_some {sort : List Event → List Event} {events r : List Event} {title : Str}
    {tokens : List Str} (h : addEvent sort events title tokens = some r) :
    ∃ date time, validateDate date = true ∧ validateTime time = true ∧
      r = sort (events ++ [{ title := title, date := date, time := time }]) := by
  have promptUntil_valid : ∀ (valid : Str → Bool) (toks : List Str) (x : Str) (rest : List Str),
      promptUntil valid toks = some (x, rest) → valid x = true := by
    intro valid toks
    induction toks with
    | nil => intro x rest h; simp [promptUntil] at h
    | cons tok tl ih =>
      intro x rest h
      unfold promptUntil at h
      split at h
      · rename_i hv
        simp only [Option.some.injEq, Prod.mk.injEq] at h
        rw [← h.1]; exact hv
      · exact ih x rest h
  unfold addEvent at h
  split at h
  · exact absurd h (by simp)
  · rename_i date tokens1 hd
    split at h
    · exact absurd h (by simp)
    · rename_i time rest ht
      refine ⟨date, time, promptUntil_valid _ _ _ _ hd, promptUntil_valid _ _ _ _ ht, ?_⟩
      simpa using h.symm

theorem editEvent_sorted (sort : List Event → List Event) (hs : IsStdSort sort)
    (events : List Event) (t newTitle newDate newTime : Str) (h : SortedBy events) :
    SortedBy (editEvent sort events t newTitle newDate newTime) := by
  unfold editEvent
  split
  · exact hs.2 _
  · exact h

theorem deleteEvent_sorted (events : List Event) (t : Str) (h : SortedBy events) :
    SortedBy (deleteEvent events t) := by
  rw [deleteEvent_eq_filter]
  exact List.Pairwise.sublist (List.filter_sublist _) h

theorem reachable_sortedBy (sort : List Event → List Event) (hs : IsStdSort sort)
    (events : List Event) (h : Reachable sort events) : SortedBy events := by
  induction h with
  | empty => simp [SortedBy]
  | load fs => exact loadEvents_sorted sort hs fs
  | add title tokens _ hadd _ =>
    obtain ⟨date, time, _, _, rfl⟩ := addEvent_some hadd
    exact hs.2 _
  | edit t newTitle newDate newTime _ ih => exact editEvent_sorted sort hs _ _ _ _ _ ih
  | delete t _ ih => exact deleteEvent_sorted _ _ ih

/-- Claim C1: every collection reachable from the empty one or from the result
of `loadEvents` (on any file, or none) by any sequence of `addEvent`,
`editEvent` and `deleteEvent` with any inputs is sorted ascending by
(date, time): for every adjacent pair `a`, `b` either `a.date < b.date`, or
`a.date = b.date` and `a.time <= b.time`, in the byte-wise string order. -/
theorem reachable_sorted (sort : List Event → List Event) (hs : IsStdSort sort)
    (events : List Event) (h : Reachable sort events) : List.Chain' DateTimeLe events :=
  sortedBy_chain (reachable_sortedBy sort hs events h)

/-- The ordering invariant at a collection reached by a load, an add, an edit
that moves the edited event to the front, and a delete that matches nothing. -/
theorem reachable_sorted_witness :
    List.Chain' DateTimeLe
      (deleteEvent
        (editEvent isort
          (isort (loadEvents isort (some (ascii "Lunch\n2024-03-01\n12:00\n")) [] ++
            [{ title := ascii "Standup", date := ascii "2024-03-01", time := ascii "09:00" }]))
          (ascii "Lunch") [] (ascii "2024-02-28") (ascii "noon"))
        (ascii "Dinner")) :=
  reachable_sorted isort isort_isStdSort _
    (Reachable.delete (ascii "Dinner")
      (Reachable.edit (ascii "Lunch") [] (ascii "2024-02-28") (ascii "noon")
        (Reachable.add (ascii "Standup") [ascii "tomorrow", ascii "2024-03-01", ascii "09:00"]
          (Reachable.load (some (ascii "Lunch\n2024-03-01\n12:00\n")))
          (by decide))))

/-! ## Save, then load -/

theorem takeLine_append (t rest : Str) (h : 10 ∉ t) : takeLine (t ++ 10 :: rest) = t := by
  induction t with
  | nil => simp [takeLine]
  | cons c cs ih =>
    have hc : c ≠ 10 := fun e => h (by simp [e])
    have hcs : 10 ∉ cs := fun e => h (List.mem_cons_of_mem _ e)
    simp [takeLine, hc, ih hcs]

theorem dropLine_append (t rest : Str) (h : 10 ∉ t) : dropLine (t ++ 10 :: rest) = some rest := by
  induction t with
  | nil => simp [dropLine]
  | cons c cs ih =>
    have hc : c ≠ 10 := fun e => h (by simp [e])
    have hcs : 10 ∉ cs := fun e => h (List.mem_cons_of_mem _ e)
    simp [dropLine, hc, ih hcs]

theorem getline_line (t rest old : Str) (h : 10 ∉ t) :
    getline { buf := t ++ 10 :: rest, eofbit := false, failbit := false } old =
      ({ buf := rest, eofbit := false, failbit := false }, t) := by
  unfold getline
  simp only [Bool.or_self, Bool.false_eq_true, if_false]
  cases hb : t ++ 10 :: rest with
  | nil => simp at hb
  | cons c cs =>
    simp only []
    rw [← hb, dropLine_append t rest h, takeLine_append t rest h]

theorem dropLine_length : ∀ (l rest : Str), dropLine l = some rest → rest.length < l.length
  | [], rest, h => by simp [dropLine] at h
  | c :: cs, rest, h => by
    unfold dropLine at h
    split at h
    · simp only [Option.some.injEq] at h
      rw [← h]; simp
    · have := dropLine_length cs rest h
      simp only [List.length_cons]
      omega

theorem getline_buf_le (file : IStream) (str : Str) :
    (getline file str).1.buf.length ≤ file.buf.length := by
  unfold getline
  split
  · exact Nat.le_refl _
  · split
    · simp
    · rename_i c cs hb
      rw [hb]
      split
      · rename_i rest hd
        exact Nat.le_of_lt (dropLine_length _ _ hd)
      · simp

theorem getline_buf_lt (file : IStream) (str : Str)
    (h : (getline file str).1.failbit = false) :
    (getline file str).1.buf.length < file.buf.length := by
  unfold getline at h ⊢
  split
  · rename_i hg
    simp only [hg, if_true] at h
    exact absurd h (by simp)
  · rename_i hg
    simp only [hg, if_false] at h
    split
    · rename_i hb
      simp only [hb] at h
      exact absurd h (by simp)
    · rename_i c cs hb
      rw [hb]
      split
      · rename_i rest hd
        exact dropLine_length _ _ hd
      · simp

/-- The loop of `loadEvents` ends on every file: any two amounts of fuel above
the number of unread bytes give the same result, so the fuel `loadEvents` hands
over is never the reason the loop stops. -/
theorem loadLoop_fuel : ∀ (fuel1 fuel2 : Nat) (file : IStream) (event : Event)
    (events : List Event), file.buf.length < fuel1 → file.buf.length < fuel2 →
    loadLoop fuel1 file event events = loadLoop fuel2 file event events
  | 0, _, _, _, _, h, _ => absurd h (Nat.not_lt_zero _)
  | _ + 1, 0, _, _, _, _, h => absurd h (Nat.not_lt_zero _)
  | n1 + 1, n2 + 1, file, event, events, h1, h2 => by
    unfold loadLoop
    simp only []
    cases hf : (getline file event.title).1.failbit with
    | true => simp
    | false =>
      simp only [Bool.false_eq_true, if_false]
      have hlt := getline_buf_lt file event.title hf
      have hle2 := getline_buf_le (getline file event.title).1 event.date
      have hle3 := getline_buf_le (getline (getline file event.title).1 event.date).1 event.time
      exact loadLoop_fuel n1 n2 _ _ _ (by omega) (by omega)

theorem validateDate_no_newline {d : Str} (h : validateDate d = true) : 10 ∉ d := by
  obtain ⟨y0, y1, y2, y3, m0, m1, d0, d1, rfl, hb⟩ := (validateDate_shape d).mp h
  simp only [List.mem_cons, List.mem_singleton, List.not_mem_nil, or_false, not_or]
  omega

theorem validateTime_no_newline {t : Str} (h : validateTime t = true) : 10 ∉ t := by
  obtain ⟨h0, h1, m0, m1, rfl, hb⟩ := (validateTime_shape t).mp h
  simp only [List.mem_cons, List.mem_singleton, List.not_mem_nil, or_false, not_or]
  omega

theorem length_le_saveEvents (events : List Event) :
    events.length ≤ (saveEvents events).length := by
  induction events with
  | nil => simp
  | cons e es ih =>
    simp only [saveEvents, List.length_cons, List.length_append, List.length_nil]
    omega

/-- The loop of `loadEvents` reads back, in order, what `saveEvents` wrote. -/
theorem loadLoop_saveEvents (events : List Event)
    (h : ∀ e ∈ events, 10 ∉ e.title ∧ 10 ∉ e.date ∧ 10 ∉ e.time) :
    ∀ (fuel : Nat) (event : Event) (acc : List Event), events.length < fuel →
      loadLoop fuel { buf := saveEvents events, eofbit := false, failbit := false } event acc =
        acc ++ events := by
  induction events with
  | nil =>
    intro fuel event acc hf
    obtain ⟨n, rfl⟩ : ∃ n, fuel = n + 1 := ⟨fuel - 1, by simp at hf; omega⟩
    simp [loadLoop, saveEvents, getline]
  | cons e es ih =>
    intro fuel event acc hf
    obtain ⟨n, rfl⟩ : ∃ n, fuel = n + 1 := ⟨fuel - 1, by simp at hf; omega⟩
    obtain ⟨ht, hd, htm⟩ := h e (List.mem_cons_self _ _)
    have hes : ∀ x ∈ es, 10 ∉ x.title ∧ 10 ∉ x.date ∧ 10 ∉ x.time :=
      fun x hx => h x (List.mem_cons_of_mem _ hx)
    have hbuf : saveEvents (e :: es) =
        e.title ++ 10 :: (e.date ++ 10 :: (e.time ++ 10 :: saveEvents es)) := by
      simp [saveEvents]
    unfold loadLoop
    simp only [hbuf, getline_line _ _ _ ht, getline_line _ _ _ hd, getline_line _ _ _ htm,
      Bool.false_eq_true, if_false]
    rw [ih hes n _ _ (by simp at hf; omega)]
    simp

/-- Claim C2: for every list of events whose titles contain no newline and whose
dates pass `validateDate` and times pass `validateTime` (empty titles and
duplicates included), loading into an empty collection the file `saveEvents`
wrote yields a permutation of the list that is sorted ascending by
(date, time). -/
theorem save_load_roundtrip (sort : List Event → List Event) (hs : IsStdSort sort)
    (events : List Event)
    (h : ∀ e ∈ events, 10 ∉ e.title ∧ validateDate e.date = true ∧ validateTime e.time = true) :
    (loadEvents sort (some (saveEvents events)) []).Perm events ∧
      List.Chain' DateTimeLe (loadEvents sort (some (saveEvents events)) []) := by
  have hnl : ∀ e ∈ events, 10 ∉ e.title ∧ 10 ∉ e.date ∧ 10 ∉ e.time := fun e he =>
    ⟨(h e he).1, validateDate_no_newline (h e he).2.1, validateTime_no_newline (h e he).2.2⟩
  have hloop := loadLoop_saveEvents events hnl ((saveEvents events).length + 1)
    { title := [], date := [], time := [] } []
    (Nat.lt_succ_of_le (length_le_saveEvents events))
  refine ⟨?_, sortedBy_chain (loadEvents_sorted sort hs _)⟩
  unfold loadEvents
  simp only [hloop, List.nil_append]
  exact hs.1 events

/-- The round trip on a list with an empty title, a duplicate and an order that
the load changes. -/
theorem save_load_roundtrip_witness :
    (loadEvents isort (some (saveEvents
        [{ title := ascii "Lunch", date := ascii "2024-03-01", time := ascii "12:00" },
         { title := [], date := ascii "2024-03-01", time := ascii "09:00" },
         { title := ascii "Lunch", date := ascii "2024-03-01", time := ascii "12:00" }])) []).Perm
        [{ title := ascii "Lunch", date := ascii "2024-03-01", time := ascii "12:00" },
         { title := [], date := ascii "2024-03-01", time := ascii "09:00" },
         { title := ascii "Lunch", date := ascii "2024-03-01", time := ascii "12:00" }] ∧
      List.Chain' DateTimeLe (loadEvents isort (some (saveEvents
        [{ title := ascii "Lunch", date := ascii "2024-03-01", time := ascii "12:00" },
         { title := [], date := ascii "2024-03-01", time := ascii "09:00" },
         { title := ascii "Lunch", date := ascii "2024-03-01", time := ascii "12:00" }])) []) :=
  save_load_roundtrip isort isort_isStdSort _ (by decide)

/-! ## Delete -/

/-- Claim C5: after `deleteEvent` with title `t` the collection is exactly the
sub-list of the events whose title differs from `t`, in their original order.
So no event titled `t` is left (two events with that title are both removed),
every other event is kept as often as it occurred, and the number of removed
events is the number of events titled `t`. -/
theorem deleteEvent_spec (events : List Event) (t : Str) :
    deleteEvent events t = events.filter (fun e => decide (e.title ≠ t)) ∧
    (∀ e ∈ deleteEvent events t, e.title ≠ t) ∧
    (∀ e : Event, e.title ≠ t → (deleteEvent events t).count e = events.count e) ∧
    (deleteEvent events t).length + events.countP (fun e => decide (e.title = t)) =
      events.length ∧
    deleteEvent
      [{ title := ascii "Lunch", date := ascii "2024-03-01", time := ascii "12:00" },
       { title := ascii "Standup", date := ascii "2024-03-02", time := ascii "09:00" },
       { title := ascii "Lunch", date := ascii "2024-03-02", time := ascii "12:00" }]
      (ascii "Lunch") =
      [{ title := ascii "Standup", date := ascii "2024-03-02", time := ascii "09:00" }] := by
  have hf : deleteEvent events t = events.filter (fun e => decide (e.title ≠ t)) := by
    rw [deleteEvent_eq_filter]
    congr 1
    funext e
    simp
  refine ⟨hf, ?_, ?_, ?_, by decide⟩
  · intro e he
    rw [hf] at he
    simpa using (List.mem_filter.mp he).2
  · intro e he
    rw [hf, List.count_filter (by simpa using he)]
  · rw [hf]
    generalize events = l
    induction l with
    | nil => rfl
    | cons e es ih =>
      by_cases he : e.title = t
      · simp only [List.filter_cons, List.countP_cons, he, ne_eq, not_true_eq_false,
          decide_False, decide_True, if_true, List.length_cons, Bool.false_eq_true, if_false]
        simp only [ne_eq] at ih
        omega
      · simp only [List.filter_cons, List.countP_cons, he, ne_eq, not_false_eq_true,
          decide_False, decide_True, if_true, List.length_cons, Bool.false_eq_true, if_false]
        simp only [ne_eq] at ih
        omega

/-! ## Edit -/

theorem editLoop_none (t nt nd ntm : Str) (events : List Event)
    (h : ∀ e ∈ events, e.title ≠ t) : editLoop t nt nd ntm events = none := by
  induction events with
  | nil => rfl
  | cons e es ih =>
    have he : e.title ≠ t := h e (List.mem_cons_self _ _)
    simp [editLoop, he, ih (fun x hx => h x (List.mem_cons_of_mem _ hx))]

theorem editLoop_first (t nt nd ntm : Str) (pre : List Event) (e : Event) (post : List Event)
    (hpre : ∀ x ∈ pre, x.title ≠ t) (he : e.title = t) :
    editLoop t nt nd ntm (pre ++ e :: post) = some (pre ++ applyEdit e nt nd ntm :: post) := by
  induction pre with
  | nil => simp [editLoop, he]
  | cons x xs ih =>
    have hx : x.title ≠ t := hpre x (List.mem_cons_self _ _)
    simp [editLoop, hx, ih (fun y hy => hpre y (List.mem_cons_of_mem _ hy))]

theorem applyEdit_fields (e : Event) (nt nd ntm : Str) :
    applyEdit e nt nd ntm =
      { title := if nt ≠ [] then nt else e.title,
        date := if nd ≠ [] ∧ validateDate nd = true then nd else e.date,
        time := if ntm ≠ [] ∧ validateTime ntm = true then ntm else e.time } := by
  unfold applyEdit
  by_cases h1 : nt = [] <;> by_cases h2 : nd = [] <;> by_cases h3 : ntm = [] <;>
    by_cases h4 : validateDate nd = true <;> by_cases h5 : validateTime ntm = true <;>
    simp [h1, h2, h3, h4, h5]

/-- Claim C6: `editEvent` with title `t` and overrides leaves the collection
unchanged when no event is titled `t`; otherwise the result is a permutation of
the collection in which only the first event titled `t` is replaced: its title
by `newTitle` when that is non-empty, its date by `newDate` when that is
non-empty and passes `validateDate`, its time by `newTime` when that is
non-empty and passes `validateTime`.  All other events, later ones titled `t`
included, are kept. -/
theorem editEvent_spec (sort : List Event → List Event) (hs : IsStdSort sort)
    (events : List Event) (t newTitle newDate newTime : Str) :
    ((∀ e ∈ events, e.title ≠ t) →
      editEvent sort events t newTitle newDate newTime = events) ∧
    (∀ (pre : List Event) (e : Event) (post : List Event),
      events = pre ++ e :: post → (∀ x ∈ pre, x.title ≠ t) → e.title = t →
      (editEvent sort events t newTitle newDate newTime).Perm
        (pre ++
          { title := if newTitle ≠ [] then newTitle else e.title,
            date := if newDate ≠ [] ∧ validateDate newDate = true then newDate else e.date,
            time := if newTime ≠ [] ∧ validateTime newTime = true then newTime else e.time }
          :: post)) := by
  constructor
  · intro h
    unfold editEvent
    rw [editLoop_none t newTitle newDate newTime events h]
  · intro pre e post hev hpre he
    unfold editEvent
    rw [hev, editLoop_first t newTitle newDate newTime pre e post hpre he, applyEdit_fields]
    exact hs.1 _

/-- An edit of the first of two events titled "Lunch": the title is kept (empty
override), the date is replaced, the invalid time override is dropped, and the
second "Lunch" is untouched. -/
theorem editEvent_spec_witness :
    editEvent isort
      [{ title := ascii "Lunch", date := ascii "2024-03-01", time := ascii "12:00" },
       { title := ascii "Lunch", date := ascii "2024-03-02", time := ascii "12:30" }]
      (ascii "Lunch") [] (ascii "2024-03-05") (ascii "25h") =
      [{ title := ascii "Lunch", date := ascii "2024-03-02", time := ascii "12:30" },
       { title := ascii "Lunch", date := ascii "2024-03-05", time := ascii "12:00" }] ∧
    (editEvent isort
      [{ title := ascii "Lunch", date := ascii "2024-03-01", time := ascii "12:00" },
       { title := ascii "Lunch", date := ascii "2024-03-02", time := ascii "12:30" }]
      (ascii "Lunch") [] (ascii "2024-03-05") (ascii "25h")).Perm
      ([] ++
        { title := if ([] : Str) ≠ [] then [] else ascii "Lunch",
          date := if ascii "2024-03-05" ≠ [] ∧ validateDate (ascii "2024-03-05") = true
            then ascii "2024-03-05" else ascii "2024-03-01",
          time := if ascii "25h" ≠ [] ∧ validateTime (ascii "25h") = true
            then ascii "25h" else ascii "12:00" }
        :: [{ title := ascii "Lunch", date := ascii "2024-03-02", time := ascii "12:30" }]) :=
  ⟨by decide,
   (editEvent_spec isort isort_isStdSort _ (ascii "Lunch") [] (ascii "2024-03-05")
      (ascii "25h")).2 []
      { title := ascii "Lunch", date := ascii "2024-03-01", time := ascii "12:00" }
      [{ title := ascii "Lunch", date := ascii "2024-03-02", time := ascii "12:30" }]
      rfl (by simp) rfl⟩

/-! ## Search -/

theorem printEvents_eq (l : List Event) : printEvents l = (l.map eventLine).flatten := by
  induction l with
  | nil => rfl
  | cons e es ih => simp [printEvents, ih]

theorem startsWith_iff : ∀ (s q : Str), startsWith s q = true ↔ q <+: s
  | _, [] => by simp [startsWith]
  | [], d :: q => by simp [startsWith]
  | c :: s, d :: q => by
    simp only [startsWith, Bool.and_eq_true, decide_eq_true_eq, startsWith_iff s q]
    constructor
    · rintro ⟨rfl, h⟩
      exact (List.prefix_cons_inj c).mpr h
    · intro h
      obtain ⟨rfl, h2⟩ := List.cons_prefix_cons.mp h
      exact ⟨rfl, h2⟩

theorem find_isSome_iff (q : Str) : ∀ (s : Str) (pos : Nat),
    (find s q pos).isSome = true ↔ q <:+: s
  | [], pos => by
    cases q with
    | nil => simp [find]
    | cons d q => simp [find]
  | c :: s, pos => by
    unfold find
    by_cases h : startsWith (c :: s) q = true
    · simp only [h, if_true, Option.isSome_some, true_iff]
      exact ((startsWith_iff _ _).mp h).isInfix
    · simp only [h, Bool.false_eq_true, if_false, find_isSome_iff q s (pos + 1)]
      have hp : ¬ q <+: c :: s := fun hp => h ((startsWith_iff _ _).mpr hp)
      rw [List.infix_cons_iff]
      constructor
      · exact Or.inr
      · rintro (h1 | h1)
        · exact absurd h1 hp
        · exact h1

theorem searchLoop_eq (q : Str) : ∀ (events : List Event) (st : Str × Bool),
    searchLoop q events st =
      (st.1 ++ printEvents (events.filter (fun e => decide (q <:+: e.title))),
       st.2 || !(events.filter (fun e => decide (q <:+: e.title))).isEmpty)
  | [], st => by simp [searchLoop, printEvents]
  | e :: es, st => by
    unfold searchLoop
    by_cases h : q <:+: e.title
    · have h1 : (find e.title q 0).isSome = true := (find_isSome_iff q _ 0).mpr h
      simp [h1, h, searchLoop_eq q es, printEvents, List.append_assoc]
    · have h1 : ¬ (find e.title q 0).isSome = true := fun hh => h ((find_isSome_iff q _ 0).mp hh)
      simp [h1, h, searchLoop_eq q es]

/-- Claim C7: `searchEvent` with query `q` reports, in collection order, exactly
the events whose title contains `q` as a contiguous byte-for-byte substring
(one line each; the "No events matching" message when there is none), and the
menu round that runs it leaves the collection unchanged.  With titles Lunch,
Brunch, Dinner the query "unch" reports Lunch and Brunch and not Dinner. -/
theorem searchEvent_spec :
    (∀ (events : List Event) (q : Str),
      searchEvent events q =
        if events.filter (fun e => decide (q <:+: e.title)) = [] then
          ascii "No events matching " ++ [34] ++ q ++ [34] ++ ascii " were found.\n"
        else ((events.filter (fun e => decide (q <:+: e.title))).map
          (fun e => e.date ++ ascii " " ++ e.time ++ ascii " - " ++ e.title ++
            ascii "\n")).flatten) ∧
    (∀ (sort : List Event → List Event) (inp : Console) (st : State),
      inp.choice = 5 → menuStep sort inp st = some st) ∧
    searchEvent
      [{ title := ascii "Lunch", date := ascii "2024-03-01", time := ascii "12:00" },
       { title := ascii "Brunch", date := ascii "2024-03-02", time := ascii "10:30" },
       { title := ascii "Dinner", date := ascii "2024-03-02", time := ascii "19:00" }]
      (ascii "unch") =
      ascii "2024-03-01 12:00 - Lunch\n2024-03-02 10:30 - Brunch\n" := by
  refine ⟨?_, ?_, by decide⟩
  · intro events q
    have hline : (fun e : Event => e.date ++ ascii " " ++ e.time ++ ascii " - " ++ e.title ++
        ascii "\n") = eventLine := rfl
    rw [hline, ← printEvents_eq]
    unfold searchEvent
    simp only [searchLoop_eq, List.nil_append, Bool.false_or]
    by_cases h : events.filter (fun e => decide (q <:+: e.title)) = []
    · simp [h, printEvents]
    · have h2 : (events.filter (fun e => decide (q <:+: e.title))).isEmpty = false := by
        cases hl : events.filter (fun e => decide (q <:+: e.title)) with
        | nil => exact absurd hl h
        | cons a l => rfl
      simp [h, h2]
  · intro sort inp st h
    simp [menuStep, h]

/-! ## Add and view -/

theorem promptUntil_skip (valid : Str → Bool) (pre : List Str) (x : Str) (rest : List Str)
    (hpre : ∀ y ∈ pre, valid y = false) (hx : valid x = true) :
    promptUntil valid (pre ++ x :: rest) = some (x, rest) := by
  induction pre with
  | nil => simp [promptUntil, hx]
  | cons y ys ih =>
    have hy : valid y = false := hpre y (List.mem_cons_self _ _)
    simp [promptUntil, hy, ih (fun z hz => hpre z (List.mem_cons_of_mem _ hz))]

theorem addEvent_eq (sort : List Event → List Event) (events : List Event)
    (title date time : Str) (pre1 pre2 rest : List Str)
    (h1 : ∀ x ∈ pre1, validateDate x = false) (hd : validateDate date = true)
    (h2 : ∀ x ∈ pre2, validateTime x = false) (ht : validateTime time = true) :
    addEvent sort events title (pre1 ++ date :: (pre2 ++ time :: rest)) =
      some (sort (events ++ [{ title := title, date := date, time := time }])) := by
  unfold addEvent
  rw [promptUntil_skip validateDate pre1 date _ h1 hd]
  simp only []
  rw [promptUntil_skip validateTime pre2 time _ h2 ht]

theorem perm_singleton_eq {r : List Event} {a : Event} (h : r.Perm [a]) : r = [a] :=
  List.perm_singleton.mp h

theorem sorted_perm_pair {r : List Event} {a b : Event} (hp : r.Perm [a, b])
    (hs : SortedBy r) (hab : Event.lt a b = true) : r = [a, b] := by
  have hlen := hp.length_eq
  rcases r with _ | ⟨x, _ | ⟨y, _ | ⟨z, l⟩⟩⟩ <;> simp at hlen
  have hx : x = a ∨ x = b := by simpa using hp.subset (List.mem_cons_self _ _)
  rcases hx with rfl | rfl
  · have hy : [y].Perm [b] := (List.perm_cons x).mp hp
    rw [List.perm_singleton.mp hy]
  · have hy : [y].Perm [a] := (List.perm_cons x).mp (hp.trans (List.Perm.swap x a []))
    have hya : y = a := by simpa using List.perm_singleton.mp hy
    subst hya
    unfold SortedBy at hs
    have := (List.pairwise_cons.mp hs).1 y (List.mem_cons_self _ _)
    rw [hab] at this
    exact absurd this (by simp)

theorem viewEvents_cons (e : Event) (l : List Event) :
    viewEvents (e :: l) = ascii "\nScheduled Events:\n" ++ printEvents (e :: l) := by
  simp [viewEvents]

/-- Claim C8: `addEvent` with a title and the first valid date and time tokens
returns, and the new collection is a permutation of the old one with the new
event appended: one longer, every stored event still present as often as
before.  `viewEvents` then lists one line `<date> <time> - <title>` for each
event in collection order.  From the empty store, adding Standup (2024-03-01,
09:00) and then Lunch (2024-03-01, 12:00) makes the view list Standup before
Lunch. -/
theorem addEvent_spec (sort : List Event → List Event) (hs : IsStdSort sort) :
    (∀ (events : List Event) (title date time : Str) (pre1 pre2 rest : List Str),
      (∀ x ∈ pre1, validateDate x = false) → validateDate date = true →
      (∀ x ∈ pre2, validateTime x = false) → validateTime time = true →
      ∃ r, addEvent sort events title (pre1 ++ date :: (pre2 ++ time :: rest)) = some r ∧
        r.Perm (events ++ [{ title := title, date := date, time := time }]) ∧
        r.length = events.length + 1 ∧
        (∀ x ∈ events, events.count x ≤ r.count x) ∧
        viewEvents r = ascii "\nScheduled Events:\n" ++
          (r.map (fun e => e.date ++ ascii " " ++ e.time ++ ascii " - " ++ e.title ++
            ascii "\n")).flatten) ∧
    (∃ r1 r2,
      addEvent sort [] (ascii "Standup") [ascii "2024-03-01", ascii "09:00"] = some r1 ∧
      addEvent sort r1 (ascii "Lunch") [ascii "2024-03-01", ascii "12:00"] = some r2 ∧
      viewEvents r2 =
        ascii "\nScheduled Events:\n2024-03-01 09:00 - Standup\n2024-03-01 12:00 - Lunch\n") := by
  constructor
  · intro events title date time pre1 pre2 rest h1 hd h2 ht
    refine ⟨_, addEvent_eq sort events title date time pre1 pre2 rest h1 hd h2 ht, hs.1 _, ?_,
      ?_, ?_⟩
    · rw [(hs.1 _).length_eq]; simp
    · intro x _
      rw [(hs.1 _).count_eq, List.count_append]
      omega
    · have hlen : (sort (events ++ [{ title := title, date := date, time := time }])).length =
          events.length + 1 := by rw [(hs.1 _).length_eq]; simp
      cases hr : sort (events ++ [{ title := title, date := date, time := time }]) with
      | nil => rw [hr] at hlen; simp at hlen
      | cons e l => rw [viewEvents_cons e l, printEvents_eq]; rfl
  · have e1 := addEvent_eq sort [] (ascii "Standup") (ascii "2024-03-01") (ascii "09:00")
      [] [] [] (by simp) (by decide) (by simp) (by decide)
    have hr1 : sort ([] ++ [standup]) = [standup] := perm_singleton_eq (hs.1 _)
    have e2 := addEvent_eq sort [standup] (ascii "Lunch") (ascii "2024-03-01") (ascii "12:00")
      [] [] [] (by simp) (by decide) (by simp) (by decide)
    have hr2 : sort ([standup] ++ [lunch]) = [standup, lunch] :=
      sorted_perm_pair (hs.1 ([standup] ++ [lunch])) (hs.2 _) (by decide)
    refine ⟨[standup], [standup, lunch], ?_, ?_, by decide⟩
    · rw [← hr1]; exact e1
    · rw [← hr2]; exact e2

/-- The claim at insertion sort: re-prompts on "soon" and "9am" before the
accepted tokens, the added event sorted in first, and the order of the view. -/
theorem addEvent_spec_witness :
    (∃ r, addEvent isort [lunch] (ascii "Standup")
        ([ascii "soon"] ++ ascii "2024-03-01" :: ([ascii "9am"] ++ ascii "09:00" :: [])) = some r ∧
      r.Perm ([lunch] ++
        [{ title := ascii "Standup", date := ascii "2024-03-01", time := ascii "09:00" }]) ∧
      r.length = [lunch].length + 1 ∧
      (∀ x ∈ [lunch], [lunch].count x ≤ r.count x) ∧
      viewEvents r = ascii "\nScheduled Events:\n" ++
        (r.map (fun e => e.date ++ ascii " " ++ e.time ++ ascii " - " ++ e.title ++
          ascii "\n")).flatten) ∧
    viewEvents (isort (isort [standup] ++ [lunch])) =
      ascii "\nScheduled Events:\n2024-03-01 09:00 - Standup\n2024-03-01 12:00 - Lunch\n" :=
  ⟨(addEvent_spec isort isort_isStdSort).1 [lunch]
      (ascii "Standup") (ascii "2024-03-01") (ascii "09:00") [ascii "soon"] [ascii "9am"] []
      (by decide) (by decide) (by decide) (by decide),
   by decide⟩

/-! ## The menu loop and the file -/

theorem menuStep_add (sort : List Event → List Event) (inp : Console) (st : State)
    (events1 : List Event) (hc : inp.choice = 1)
    (h : addEvent sort st.events inp.line inp.tokens = some events1) :
    menuStep sort inp st = some { events := events1, file := some (saveEvents events1) } := by
  unfold menuStep
  simp only [hc, if_true, h]

theorem menuStep_edit (sort : List Event → List Event) (inp : Console) (st : State)
    (hc : inp.choice = 3) :
    menuStep sort inp st =
      some { events := editEvent sort st.events inp.line inp.newTitle inp.newDate inp.newTime,
             file := some (saveEvents
               (editEvent sort st.events inp.line inp.newTitle inp.newDate inp.newTime)) } := by
  unfold menuStep
  simp only [hc, show ¬ (3 : Int) = 1 by decide, show ¬ (3 : Int) = 2 by decide, if_true,
    if_false]

theorem menuStep_delete (sort : List Event → List Event) (inp : Console) (st : State)
    (hc : inp.choice = 4) :
    menuStep sort inp st =
      some { events := deleteEvent st.events inp.line,
             file := some (saveEvents (deleteEvent st.events inp.line)) } := by
  unfold menuStep
  simp only [hc, show ¬ (4 : Int) = 1 by decide, show ¬ (4 : Int) = 2 by decide,
    show ¬ (4 : Int) = 3 by decide, if_true, if_false]

theorem menuStep_other (sort : List Event → List Event) (inp : Console) (st : State)
    (hc : ¬ (inp.choice = 1 ∨ inp.choice = 3 ∨ inp.choice = 4)) :
    menuStep sort inp st = some st := by
  have h1 : ¬ inp.choice = 1 := fun e => hc (Or.inl e)
  have h3 : ¬ inp.choice = 3 := fun e => hc (Or.inr (Or.inl e))
  have h4 : ¬ inp.choice = 4 := fun e => hc (Or.inr (Or.inr e))
  unfold menuStep
  simp only [h1, h3, h4, if_false, ite_self]

theorem addEvent_returns (sort : List Event → List Event) (events : List Event) (title : Str)
    (tokens : List Str) (h : AddReturns tokens) :
    ∃ date time, validateDate date = true ∧ validateTime time = true ∧
      addEvent sort events title tokens =
        some (sort (events ++ [{ title := title, date := date, time := time }])) := by
  obtain ⟨pre1, date, pre2, time, rest, rfl, h1, hd, h2, ht⟩ := h
  exact ⟨date, time, hd, ht, addEvent_eq sort events title date time pre1 pre2 rest h1 hd h2 ht⟩

/-- Every round returns, unless it is an Add whose tokens never pass. -/
theorem menuStep_returns (sort : List Event → List Event) (inp : Console) (st : State)
    (h : inp.choice = 1 → AddReturns inp.tokens) : ∃ st1, menuStep sort inp st = some st1 := by
  by_cases h1 : inp.choice = 1
  · obtain ⟨date, time, _, _, hadd⟩ := addEvent_returns sort st.events inp.line inp.tokens (h h1)
    exact ⟨_, menuStep_add sort inp st _ h1 hadd⟩
  · by_cases h3 : inp.choice = 3
    · exact ⟨_, menuStep_edit sort inp st h3⟩
    · by_cases h4 : inp.choice = 4
      · exact ⟨_, menuStep_delete sort inp st h4⟩
      · refine ⟨st, menuStep_other sort inp st ?_⟩
        rintro (e | e | e)
        · exact h1 e
        · exact h3 e
        · exact h4 e

theorem menuStep_mutating {sort : List Event → List Event} {inp : Console} {st st1 : State}
    (h : menuStep sort inp st = some st1)
    (hc : inp.choice = 1 ∨ inp.choice = 3 ∨ inp.choice = 4) : InSync st1 := by
  rcases hc with hc | hc | hc
  · unfold menuStep at h
    simp only [hc, if_true] at h
    split at h
    · exact absurd h (by simp)
    · simp only [Option.some.injEq] at h
      rw [← h]; rfl
  · rw [menuStep_edit sort inp st hc, Option.some.injEq] at h
    rw [← h]; rfl
  · rw [menuStep_delete sort inp st hc, Option.some.injEq] at h
    rw [← h]; rfl

theorem menuStep_reading {sort : List Event → List Event} {inp : Console} {st st1 : State}
    (h : menuStep sort inp st = some st1)
    (hc : ¬ (inp.choice = 1 ∨ inp.choice = 3 ∨ inp.choice = 4)) : st1 = st := by
  rw [menuStep_other sort inp st hc, Option.some.injEq] at h
  exact h.symm

theorem menuStep_inSync {sort : List Event → List Event} {inp : Console} {st st1 : State}
    (h : menuStep sort inp st = some st1) (hst : InSync st) : InSync st1 := by
  by_cases hc : inp.choice = 1 ∨ inp.choice = 3 ∨ inp.choice = 4
  · exact menuStep_mutating h hc
  · rw [menuStep_reading h hc]; exact hst

/-- The loop returns a state on every list of rounds that are all read and whose
Add rounds are given tokens that pass. -/
theorem menuLoop_returns (sort : List Event → List Event) : ∀ (inputs : List Console)
    (st : State), (∀ inp ∈ inputs, inp.choice = 1 → AddReturns inp.tokens) →
    ∃ st1, menuLoop sort (inputs.map some) st = some st1
  | [], st, _ => ⟨st, rfl⟩
  | inp :: rest, st, h => by
    obtain ⟨st2, hstep⟩ := menuStep_returns sort inp st (h inp (List.mem_cons_self _ _))
    simp only [List.map_cons, menuLoop, hstep]
    by_cases h7 : inp.choice = 7
    · exact ⟨st2, by simp [h7]⟩
    · simp only [h7, if_false]
      exact menuLoop_returns sort rest st2 (fun x hx => h x (List.mem_cons_of_mem _ hx))

theorem menuLoop_inSync (sort : List Event → List Event) : ∀ (inputs : List (Option Console))
    (st st1 : State), menuLoop sort inputs st = some st1 → InSync st → InSync st1
  | [], st, st1, h, hst => by
    simp only [menuLoop, Option.some.injEq] at h
    rw [← h]; exact hst
  | none :: rest, st, st1, h, _ => by
    simp [menuLoop] at h
  | some inp :: rest, st, st1, h, hst => by
    unfold menuLoop at h
    split at h
    · exact absurd h (by simp)
    · rename_i st2 hstep
      have h2 : InSync st2 := menuStep_inSync hstep hst
      split at h
      · simp only [Option.some.injEq] at h
        rw [← h]; exact h2
      · exact menuLoop_inSync sort rest st2 st1 h h2

theorem menuLoop_after_mutation (sort : List Event → List Event) : ∀ (pre : List Console)
    (inp : Console) (rest : List (Option Console)) (st st1 : State),
    (∀ x ∈ pre, x.choice ≠ 7) → (inp.choice = 1 ∨ inp.choice = 3 ∨ inp.choice = 4) →
    menuLoop sort (pre.map some ++ some inp :: rest) st = some st1 → InSync st1
  | [], inp, rest, st, st1, _, hc, h => by
    simp only [List.map_nil, List.nil_append] at h
    unfold menuLoop at h
    split at h
    · exact absurd h (by simp)
    · rename_i st2 hstep
      have h2 : InSync st2 := menuStep_mutating hstep hc
      split at h
      · simp only [Option.some.injEq] at h
        rw [← h]; exact h2
      · exact menuLoop_inSync sort rest st2 st1 h h2
  | p :: pre, inp, rest, st, st1, hpre, hc, h => by
    simp only [List.map_cons, List.cons_append] at h
    unfold menuLoop at h
    split at h
    · exact absurd h (by simp)
    · rename_i st2 hstep
      have hp : ¬ p.choice = 7 := hpre p (List.mem_cons_self _ _)
      simp only [hp, if_false] at h
      exact menuLoop_after_mutation sort pre inp rest st2 st1
        (fun x hx => hpre x (List.mem_cons_of_mem _ hx)) hc h

/-- Claim C9: on the pair (collection, contents of `events.txt`) every menu round
that selects Edit (3) or Delete (4) returns with the collection its handler
leaves and with the file rewritten to the serialization of that collection,
also when the handler changes nothing; a round that selects Add (1) does the
same whenever `addEvent` returns, which it does once a date token and then a
time token pass validation.  Every round that selects anything else (View,
Search, Count, Exit, an invalid number) returns and leaves both unchanged.
The serialization is, per event in collection order, the lines title, date,
time, each ended by a newline.  The menu loop returns a state on every list of
rounds whose Add rounds get passing tokens, and once a mutating round has run
the file equals the serialization of the collection for the rest of the
loop. -/
theorem menu_persistence (sort : List Event → List Event) :
    (∀ (inp : Console) (st : State) (events1 : List Event), inp.choice = 1 →
      addEvent sort st.events inp.line inp.tokens = some events1 →
      menuStep sort inp st = some { events := events1, file := some (saveEvents events1) }) ∧
    (∀ (inp : Console) (st : State), inp.choice = 1 → AddReturns inp.tokens →
      ∃ date time, validateDate date = true ∧ validateTime time = true ∧
        menuStep sort inp st =
          some { events := sort (st.events ++ [Event.mk inp.line date time]),
                 file := some (saveEvents
                   (sort (st.events ++ [Event.mk inp.line date time]))) }) ∧
    (∀ (inp : Console) (st : State), inp.choice = 3 →
      menuStep sort inp st =
        some { events := editEvent sort st.events inp.line inp.newTitle inp.newDate inp.newTime,
               file := some (saveEvents
                 (editEvent sort st.events inp.line inp.newTitle inp.newDate inp.newTime)) }) ∧
    (∀ (inp : Console) (st : State), inp.choice = 4 →
      menuStep sort inp st =
        some { events := deleteEvent st.events inp.line,
               file := some (saveEvents (deleteEvent st.events inp.line)) }) ∧
    (∀ (inp : Console) (st : State),
      ¬ (inp.choice = 1 ∨ inp.choice = 3 ∨ inp.choice = 4) → menuStep sort inp st = some st) ∧
    (∀ (inp : Console) (st st1 : State), menuStep sort inp st = some st1 →
      ((inp.choice = 1 ∨ inp.choice = 3 ∨ inp.choice = 4) →
        st1.file = some (saveEvents st1.events)) ∧
      (¬ (inp.choice = 1 ∨ inp.choice = 3 ∨ inp.choice = 4) → st1 = st)) ∧
    (∀ events : List Event, saveEvents events =
      (events.map (fun e => e.title ++ [10] ++ e.date ++ [10] ++ e.time ++ [10])).flatten) ∧
    (∀ (inputs : List Console) (st : State),
      (∀ inp ∈ inputs, inp.choice = 1 → AddReturns inp.tokens) →
      ∃ st1, menuLoop sort (inputs.map some) st = some st1) ∧
    (∀ (pre : List Console) (inp : Console) (rest : List (Option Console)) (st st1 : State),
      (∀ x ∈ pre, x.choice ≠ 7) → (inp.choice = 1 ∨ inp.choice = 3 ∨ inp.choice = 4) →
      menuLoop sort (pre.map some ++ some inp :: rest) st = some st1 →
      st1.file = some (saveEvents st1.events)) := by
  refine ⟨menuStep_add sort, ?_, menuStep_edit sort, menuStep_delete sort, menuStep_other sort,
    fun inp st st1 h => ⟨menuStep_mutating h, menuStep_reading h⟩, ?_, menuLoop_returns sort,
    menuLoop_after_mutation sort⟩
  · intro inp st hc hret
    obtain ⟨date, time, hd, ht, hadd⟩ := addEvent_returns sort st.events inp.line inp.tokens hret
    exact ⟨date, time, hd, ht, menuStep_add sort inp st _ hc hadd⟩
  · intro events
    induction events with
    | nil => rfl
    | cons e es ih => simp [saveEvents, ih]

/-- The sample session on a file that lacks its last newline, so that it is
not the serialization of the loaded collection.  The loop returns; the Delete
round that matches nothing still rewrites the file; after the Add and the Edit
the run ends with Standup and the re-timed Lunch stored and the file equal to
their serialization. -/
theorem menu_persistence_witness :
    (∃ st1, menuLoop isort (session.map some)
      { events := [lunch], file := some (ascii "Lunch\n2024-03-01\n12:00") } = some st1) ∧
    menuStep isort (lineRound 4 (ascii "Dinner"))
      { events := [lunch], file := some (ascii "Lunch\n2024-03-01\n12:00") } =
      some { events := [lunch], file := some (ascii "Lunch\n2024-03-01\n12:00\n") } ∧
    main isort (some (ascii "Lunch\n2024-03-01\n12:00")) (session.map some) =
      some { events := [standup, Event.mk (ascii "Lunch") (ascii "2024-03-01") (ascii "13:00")],
             file := some (ascii "Standup\n2024-03-01\n09:00\nLunch\n2024-03-01\n13:00\n") } ∧
    (some (ascii "Standup\n2024-03-01\n09:00\nLunch\n2024-03-01\n13:00\n") : Option Str) =
      some (saveEvents
        [standup, Event.mk (ascii "Lunch") (ascii "2024-03-01") (ascii "13:00")]) :=
  ⟨(menu_persistence isort).2.2.2.2.2.2.2.1 session
      { events := [lunch], file := some (ascii "Lunch\n2024-03-01\n12:00") }
      (by
        intro inp hin h1
        simp only [session, List.mem_cons, List.mem_singleton, List.not_mem_nil, or_false] at hin
        rcases hin with rfl | rfl | rfl | rfl | rfl | rfl | rfl
        · exact absurd h1 (by decide)
        · exact absurd h1 (by decide)
        · exact ⟨[ascii "soon"], ascii "2024-03-01", [], ascii "09:00", [], rfl, by decide,
            by decide, by decide, by decide⟩
        · exact absurd h1 (by decide)
        · exact absurd h1 (by decide)
        · exact absurd h1 (by decide)
        · exact absurd h1 (by decide)),
   by decide,
   by decide,
   (menu_persistence isort).2.2.2.2.2.2.2.2
      [lineRound 2 []] (lineRound 4 (ascii "Dinner"))
      ((session.drop 2).map some)
      { events := [lunch], file := some (ascii "Lunch\n2024-03-01\n12:00") }
      { events := [standup, Event.mk (ascii "Lunch") (ascii "2024-03-01") (ascii "13:00")],
        file := some (ascii "Standup\n2024-03-01\n09:00\nLunch\n2024-03-01\n13:00\n") }
      (by decide) (by decide) (by decide)⟩

/-! ## The string order is chronological -/

theorem strLt_cons_iff (a b : Nat) (ra rb : Str) :
    strLt (a :: ra) (b :: rb) = true ↔ a < b ∨ (a = b ∧ strLt ra rb = true) := by
  simp only [strLt]
  by_cases h1 : a < b
  · simp [h1]
  · by_cases h2 : b < a
    · have h3 : ¬ a = b := by omega
      simp [h1, h2, h3]
    · have h3 : a = b := by omega
      simp [h1, h2, h3]

theorem lex_two (a0 a1 b0 b1 : Nat) (R : Prop)
    (ha0 : 48 ≤ a0 ∧ a0 ≤ 57) (ha1 : 48 ≤ a1 ∧ a1 ≤ 57)
    (hb0 : 48 ≤ b0 ∧ b0 ≤ 57) (hb1 : 48 ≤ b1 ∧ b1 ≤ 57) :
    (a0 < b0 ∨ (a0 = b0 ∧ (a1 < b1 ∨ (a1 = b1 ∧ R)))) ↔
      (numOf [a0, a1] < numOf [b0, b1] ∨ (numOf [a0, a1] = numOf [b0, b1] ∧ R)) := by
  have ea : numOf [a0, a1] = 10 * (a0 - 48) + (a1 - 48) := by simp [numOf, digitVal]
  have eb : numOf [b0, b1] = 10 * (b0 - 48) + (b1 - 48) := by simp [numOf, digitVal]
  rw [ea, eb]
  by_cases hR : R
  · simp only [hR, and_true]; omega
  · simp only [hR, and_false, or_false]; omega

theorem lex_four (a0 a1 a2 a3 b0 b1 b2 b3 : Nat) (R : Prop)
    (ha0 : 48 ≤ a0 ∧ a0 ≤ 57) (ha1 : 48 ≤ a1 ∧ a1 ≤ 57)
    (ha2 : 48 ≤ a2 ∧ a2 ≤ 57) (ha3 : 48 ≤ a3 ∧ a3 ≤ 57)
    (hb0 : 48 ≤ b0 ∧ b0 ≤ 57) (hb1 : 48 ≤ b1 ∧ b1 ≤ 57)
    (hb2 : 48 ≤ b2 ∧ b2 ≤ 57) (hb3 : 48 ≤ b3 ∧ b3 ≤ 57) :
    (a0 < b0 ∨ (a0 = b0 ∧ (a1 < b1 ∨ (a1 = b1 ∧ (a2 < b2 ∨ (a2 = b2 ∧
      (a3 < b3 ∨ (a3 = b3 ∧ R)))))))) ↔
      (numOf [a0, a1, a2, a3] < numOf [b0, b1, b2, b3] ∨
        (numOf [a0, a1, a2, a3] = numOf [b0, b1, b2, b3] ∧ R)) := by
  have ea : numOf [a0, a1, a2, a3] =
      10 * (10 * (10 * (a0 - 48) + (a1 - 48)) + (a2 - 48)) + (a3 - 48) := by
    simp [numOf, digitVal]
  have eb : numOf [b0, b1, b2, b3] =
      10 * (10 * (10 * (b0 - 48) + (b1 - 48)) + (b2 - 48)) + (b3 - 48) := by
    simp [numOf, digitVal]
  rw [ea, eb]
  by_cases hR : R
  · simp only [hR, and_true]; omega
  · simp only [hR, and_false, or_false]; omega

theorem eq_two (a0 a1 b0 b1 : Nat)
    (ha0 : 48 ≤ a0 ∧ a0 ≤ 57) (ha1 : 48 ≤ a1 ∧ a1 ≤ 57)
    (hb0 : 48 ≤ b0 ∧ b0 ≤ 57) (hb1 : 48 ≤ b1 ∧ b1 ≤ 57) :
    (a0 = b0 ∧ a1 = b1) ↔ numOf [a0, a1] = numOf [b0, b1] := by
  have ea : numOf [a0, a1] = 10 * (a0 - 48) + (a1 - 48) := by simp [numOf, digitVal]
  have eb : numOf [b0, b1] = 10 * (b0 - 48) + (b1 - 48) := by simp [numOf, digitVal]
  rw [ea, eb]
  omega

theorem eq_four (a0 a1 a2 a3 b0 b1 b2 b3 : Nat)
    (ha0 : 48 ≤ a0 ∧ a0 ≤ 57) (ha1 : 48 ≤ a1 ∧ a1 ≤ 57)
    (ha2 : 48 ≤ a2 ∧ a2 ≤ 57) (ha3 : 48 ≤ a3 ∧ a3 ≤ 57)
    (hb0 : 48 ≤ b0 ∧ b0 ≤ 57) (hb1 : 48 ≤ b1 ∧ b1 ≤ 57)
    (hb2 : 48 ≤ b2 ∧ b2 ≤ 57) (hb3 : 48 ≤ b3 ∧ b3 ≤ 57) :
    (a0 = b0 ∧ a1 = b1 ∧ a2 = b2 ∧ a3 = b3) ↔
      numOf [a0, a1, a2, a3] = numOf [b0, b1, b2, b3] := by
  have ea : numOf [a0, a1, a2, a3] =
      10 * (10 * (10 * (a0 - 48) + (a1 - 48)) + (a2 - 48)) + (a3 - 48) := by
    simp [numOf, digitVal]
  have eb : numOf [b0, b1, b2, b3] =
      10 * (10 * (10 * (b0 - 48) + (b1 - 48)) + (b2 - 48)) + (b3 - 48) := by
    simp [numOf, digitVal]
  rw [ea, eb]
  omega

theorem lt_iff_tupleLt (a b : Event)
    (had : validateDate a.date = true) (hat : validateTime a.time = true)
    (hbd : validateDate b.date = true) (hbt : validateTime b.time = true) :
    Event.lt a b = true ↔ tupleLt (chronoKey a) (chronoKey b) := by
  obtain ⟨at_, ad, atm⟩ := a
  obtain ⟨bt_, bd, btm⟩ := b
  simp only at had hat hbd hbt
  obtain ⟨y0, y1, y2, y3, m0, m1, d0, d1, rfl, hy0, hy1, hy2, hy3, hm0, hm1, hd0, hd1⟩ :=
    (validateDate_shape ad).mp had
  obtain ⟨h0, h1, n0, n1, rfl, hh0, hh1, hn0, hn1⟩ := (validateTime_shape atm).mp hat
  obtain ⟨z0, z1, z2, z3, k0, k1, e0, e1, rfl, hz0, hz1, hz2, hz3, hk0, hk1, he0, he1⟩ :=
    (validateDate_shape bd).mp hbd
  obtain ⟨g0, g1, p0, p1, rfl, hg0, hg1, hp0, hp1⟩ := (validateTime_shape btm).mp hbt
  have hsep : ∀ (c : Nat) (R : Prop), (c < c ∨ (c = c ∧ R)) ↔ R := by
    intro c R
    simp
  have hnil : ∀ R : Prop, (R ∨ (R ∧ False)) ↔ R := by
    intro R
    simp
  have hdl : strLt [y0, y1, y2, y3, 45, m0, m1, 45, d0, d1]
      [z0, z1, z2, z3, 45, k0, k1, 45, e0, e1] = true ↔
      (numOf [y0, y1, y2, y3] < numOf [z0, z1, z2, z3] ∨
        (numOf [y0, y1, y2, y3] = numOf [z0, z1, z2, z3] ∧
          (numOf [m0, m1] < numOf [k0, k1] ∨
            (numOf [m0, m1] = numOf [k0, k1] ∧ numOf [d0, d1] < numOf [e0, e1])))) := by
    simp only [strLt_cons_iff, hsep]
    rw [lex_four y0 y1 y2 y3 z0 z1 z2 z3 _ hy0 hy1 hy2 hy3 hz0 hz1 hz2 hz3,
      lex_two m0 m1 k0 k1 _ hm0 hm1 hk0 hk1, lex_two d0 d1 e0 e1 _ hd0 hd1 he0 he1]
    simp [strLt]
  have hde : [y0, y1, y2, y3, 45, m0, m1, 45, d0, d1] =
      [z0, z1, z2, z3, 45, k0, k1, 45, e0, e1] ↔
      (numOf [y0, y1, y2, y3] = numOf [z0, z1, z2, z3] ∧ numOf [m0, m1] = numOf [k0, k1] ∧
        numOf [d0, d1] = numOf [e0, e1]) := by
    rw [← eq_four y0 y1 y2 y3 z0 z1 z2 z3 hy0 hy1 hy2 hy3 hz0 hz1 hz2 hz3,
      ← eq_two m0 m1 k0 k1 hm0 hm1 hk0 hk1, ← eq_two d0 d1 e0 e1 hd0 hd1 he0 he1]
    simp only [List.cons.injEq, and_true, true_and]
    tauto
  have htl : strLt [h0, h1, 58, n0, n1] [g0, g1, 58, p0, p1] = true ↔
      (numOf [h0, h1] < numOf [g0, g1] ∨
        (numOf [h0, h1] = numOf [g0, g1] ∧ numOf [n0, n1] < numOf [p0, p1])) := by
    simp only [strLt_cons_iff, hsep]
    rw [lex_two h0 h1 g0 g1 _ hh0 hh1 hg0 hg1, lex_two n0 n1 p0 p1 _ hn0 hn1 hp0 hp1]
    simp [strLt]
  have hkey : tupleLt
      (chronoKey (Event.mk at_ [y0, y1, y2, y3, 45, m0, m1, 45, d0, d1] [h0, h1, 58, n0, n1]))
      (chronoKey (Event.mk bt_ [z0, z1, z2, z3, 45, k0, k1, 45, e0, e1] [g0, g1, 58, p0, p1])) ↔
      (numOf [y0, y1, y2, y3] < numOf [z0, z1, z2, z3] ∨
        (numOf [y0, y1, y2, y3] = numOf [z0, z1, z2, z3] ∧
          (numOf [m0, m1] < numOf [k0, k1] ∨ (numOf [m0, m1] = numOf [k0, k1] ∧
            (numOf [d0, d1] < numOf [e0, e1] ∨ (numOf [d0, d1] = numOf [e0, e1] ∧
              (numOf [h0, h1] < numOf [g0, g1] ∨
                (numOf [h0, h1] = numOf [g0, g1] ∧
                  numOf [n0, n1] < numOf [p0, p1])))))))) := by
    simp only [tupleLt, chronoKey, List.take, List.drop]
  rw [hkey]
  unfold Event.lt
  simp only []
  generalize numOf [y0, y1, y2, y3] = Y at hdl hde ⊢
  generalize numOf [z0, z1, z2, z3] = Z at hdl hde ⊢
  generalize numOf [m0, m1] = M at hdl hde ⊢
  generalize numOf [k0, k1] = K at hdl hde ⊢
  generalize numOf [d0, d1] = D at hdl hde ⊢
  generalize numOf [e0, e1] = E at hdl hde ⊢
  generalize numOf [h0, h1] = H at htl ⊢
  generalize numOf [g0, g1] = G at htl ⊢
  generalize numOf [n0, n1] = N at htl ⊢
  generalize numOf [p0, p1] = P at htl ⊢
  by_cases hE : [y0, y1, y2, y3, 45, m0, m1, 45, d0, d1] =
      [z0, z1, z2, z3, 45, k0, k1, 45, e0, e1]
  · rw [if_pos hE, htl]
    have h3 := hde.mp hE
    omega
  · rw [if_neg hE, hdl]
    have h3 : ¬ (Y = Z ∧ M = K ∧ D = E) := fun h => hE (hde.mpr h)
    omega

/-- Claim C10: for two events whose dates pass `validateDate` and whose times
pass `validateTime`, `Event::operator<` holds exactly when the tuple
(year, month, day, hour, minute) read from the digits of the first is strictly
smaller, lexicographically on natural numbers, than that of the second.  Hence
in a collection of validated events sorted by `operator<` no later event is
chronologically before an earlier one. -/
theorem lt_chronological :
    (∀ a b : Event, validateDate a.date = true → validateTime a.time = true →
      validateDate b.date = true → validateTime b.time = true →
      (Event.lt a b = true ↔ tupleLt (chronoKey a) (chronoKey b))) ∧
    (∀ v : List Event,
      (∀ e ∈ v, validateDate e.date = true ∧ validateTime e.time = true) → SortedBy v →
      v.Pairwise (fun a b => ¬ tupleLt (chronoKey b) (chronoKey a))) := by
  refine ⟨lt_iff_tupleLt, ?_⟩
  intro v hv hs
  unfold SortedBy at hs
  refine List.Pairwise.imp_of_mem ?_ hs
  intro a b ha hb hab hlt
  have h := (lt_iff_tupleLt b a (hv b hb).1 (hv b hb).2 (hv a ha).1 (hv a ha).2).mpr hlt
  rw [hab] at h
  exact absurd h (by simp)

/-- The claim at Standup (09:00) and Lunch (12:00) on 2024-03-01: `operator<`
holds between them and so does the order of their tuples. -/
theorem lt_chronological_witness :
    (Event.lt standup lunch = true ↔ tupleLt (chronoKey standup) (chronoKey lunch)) ∧
    Event.lt standup lunch = true ∧
    chronoKey standup = (2024, 3, 1, 9, 0) ∧ chronoKey lunch = (2024, 3, 1, 12, 0) :=
  ⟨lt_chronological.1 standup lunch (by decide) (by decide) (by decide) (by decide),
   by decide, by decide, by decide⟩

end EventSchedule
